import Mathlib

set_option maxRecDepth 4000

/-!
Shallow embedding of the payment-schedule ETL and forecast-preparation
pipeline (src/etl.py, src/forecast.py) and proofs about it.

Modelling conventions:
* dates are integers counting days since 1970-01-01 (proleptic Gregorian);
* monetary amounts are exact rationals; the decimal strings handled by the
  pipeline are exactly representable, so this is faithful for every value
  the proofs touch;
* a pandas DataFrame is a list of records, a Series a list of
  (index, value) pairs in index order;
* spreadsheet cells are either absent (NaN) or strings; a numeric cell
  enters the pipeline through str(x), i.e. through its decimal string.
-/

namespace ProyPagos

/-! ### Python string primitives -/

/-- Whitespace characters trimmed by Python's str.strip (ASCII fragment). -/
def pyIsSpace (c : Char) : Bool :=
  c = ' ' || c = '\t' || c = '\n' || c = '\x0d' || c = '\x0b' || c = '\x0c'

/-- Python str.strip on a character list. -/
def stripL (l : List Char) : List Char :=
  ((l.dropWhile pyIsSpace).reverse.dropWhile pyIsSpace).reverse

/-- Python str.upper (ASCII fragment, enough for the header vocabulary). -/
def upperL (l : List Char) : List Char :=
  l.map Char.toUpper

/-- Python s.replace("\n", " "). -/
def nlToSpace (l : List Char) : List Char :=
  l.map fun c => if c = '\n' then ' ' else c

/-- Python s.replace(",", ""). -/
def dropCommas (l : List Char) : List Char :=
  l.filter fun c => c ≠ ','

/-! ### Python float() on decimal literals

float() accepts an optional sign, a decimal mantissa and an optional
exponent.  The IEEE specials (inf, nan) and underscore digit separators
lie outside the decimal fragment the pipeline's reports use and are not
modelled; every string these proofs evaluate is a plain decimal. -/

/-- Numeric value of a list of decimal digits. -/
def digitsVal (l : List Char) : Nat :=
  l.foldl (fun a c => a * 10 + (c.toNat - 48)) 0

/-- Parse an unsigned decimal mantissa: digits, optionally followed by a
point and further digits; at least one digit must be present.  The value
is built with mkRat so that it reduces inside the kernel. -/
def parseMantissa (l : List Char) : Option Rat :=
  let ip := l.takeWhile Char.isDigit
  let rest := l.drop ip.length
  match rest with
  | [] => if ip = [] then none else some (mkRat (digitsVal ip) 1)
  | '.' :: fr =>
    if fr.all Char.isDigit ∧ (ip ≠ [] ∨ fr ≠ []) then
      some (mkRat (digitsVal ip * 10 ^ fr.length + digitsVal fr) (10 ^ fr.length))
    else none
  | _ => none

/-- Parse an exponent part (after the e/E): optional sign, then digits. -/
def parseExp (l : List Char) : Option Int :=
  match l with
  | '+' :: t => if t ≠ [] ∧ t.all Char.isDigit then some (digitsVal t : Int) else none
  | '-' :: t => if t ≠ [] ∧ t.all Char.isDigit then some (-(digitsVal t : Int)) else none
  | t => if t ≠ [] ∧ t.all Char.isDigit then some (digitsVal t : Int) else none

/-- Split a literal at the first exponent marker e/E, if any. -/
def splitOnE (l : List Char) : List Char × Option (List Char) :=
  let m := l.takeWhile fun c => c ≠ 'e' ∧ c ≠ 'E'
  match l.drop m.length with
  | [] => (m, none)
  | _ :: t => (m, some t)

/-- Scaling by a signed power of ten, kept in mkRat form so that kernel
reduction goes through. -/
def timesPow10 (q : Rat) (n : Int) : Rat :=
  if 0 ≤ n then q * mkRat ((10 : Int) ^ n.toNat) 1
  else q * mkRat 1 (10 ^ (-n).toNat)

/-- Unsigned part of float(). -/
def pyFloatCore (l : List Char) : Option Rat :=
  match splitOnE l with
  | (m, none) => parseMantissa m
  | (m, some e) =>
    match parseMantissa m, parseExp e with
    | some q, some n => some (timesPow10 q n)
    | _, _ => none

/-- Python float() on a decimal literal; none models a ValueError. -/
def pyFloat? (l : List Char) : Option Rat :=
  match l with
  | '+' :: t => pyFloatCore t
  | '-' :: t => (pyFloatCore t).map (fun q => -q)
  | t => pyFloatCore t

/-! ### Spreadsheet cells and the Report Cell Coercer (_coerce_money) -/

/-- A raw spreadsheet cell: absent (NaN) or a string.  Numeric cells are
represented by their decimal string, which is what str(x) hands to the
parsing code in every branch the pipeline takes. -/
inductive Cell where
  | na : Cell
  | s : String → Cell
deriving DecidableEq, Repr, Inhabited

/-- Python str(x) of a cell; str of a missing value is the string nan. -/
def cellStr : Cell → String
  | .na => "nan"
  | .s v => v

/-- Embedding of _coerce_money (src/etl.py lines 27-37): a null value is
0.0; a trimmed "-" or empty string is 0.0; otherwise commas are stripped
and the string is parsed by float(), any parse failure yielding 0.0. -/
def coerce_money (x : Cell) : Rat :=
  match x with
  | .na => 0
  | .s v =>
    let t := stripL v.data
    if t = ['-'] ∨ t = [] then 0
    else
      match pyFloat? (dropCommas t) with
      | some q => q
      | none => 0

/-! ### Calendar arithmetic (days since 1970-01-01, proleptic Gregorian) -/

/-- Gregorian leap-year test. -/
def isLeap (y : Int) : Bool :=
  y % 4 = 0 && (y % 100 ≠ 0 || y % 400 = 0)

/-- Length of a month. -/
def daysInMonth (y : Int) (m : Nat) : Nat :=
  match m with
  | 1 => 31 | 2 => if isLeap y then 29 else 28 | 3 => 31 | 4 => 30
  | 5 => 31 | 6 => 30 | 7 => 31 | 8 => 31 | 9 => 30 | 10 => 31
  | 11 => 30 | 12 => 31
  | _ => 0

/-- Validity of a calendar date as checked by datetime construction. -/
def validYMD (y : Int) (m d : Nat) : Bool :=
  1 ≤ y && 1 ≤ m && m ≤ 12 && 1 ≤ d && d ≤ daysInMonth y m

/-- Days since 1970-01-01 of a Gregorian date (civil-days algorithm). -/
def daysFromCivil (y : Int) (m d : Nat) : Int :=
  let yy : Int := if m ≤ 2 then y - 1 else y
  let era : Int := (if 0 ≤ yy then yy else yy - 399) / 400
  let yoe : Int := yy - era * 400
  let mp : Int := if m ≤ 2 then (m : Int) + 9 else (m : Int) - 3
  let doy : Int := (153 * mp + 2) / 5 + (d : Int) - 1
  let doe : Int := yoe * 365 + yoe / 4 - yoe / 100 + doy
  era * 146097 + doe - 719468

/-- Day of week with Monday = 0 .. Sunday = 6 (pandas dayofweek). -/
def pdDow (z : Int) : Nat :=
  ((z + 3) % 7).toNat

/-- English weekday name (pandas Series.dt.day_name). -/
def dayName (w : Nat) : String :=
  match w with
  | 0 => "Monday" | 1 => "Tuesday" | 2 => "Wednesday" | 3 => "Thursday"
  | 4 => "Friday" | 5 => "Saturday" | 6 => "Sunday" | _ => ""

/-- First whole day representable as a nanosecond pandas Timestamp. -/
def pdTsMinDay : Int := daysFromCivil 1677 9 22

/-- Last whole day representable as a nanosecond pandas Timestamp. -/
def pdTsMaxDay : Int := daysFromCivil 2262 4 11

/-- Embedding of pd.to_datetime over the three matched tokens, with
dayfirst=True and errors="coerce".  dateutil treats dayfirst as a
preference: when the second token cannot be a month (greater than 12) the
tokens are swapped and read month-first.  An invalid date, or one outside
the nanosecond-timestamp range, coerces to NaT (none here). -/
def to_datetime_dayfirst (dTok mTok y : Nat) : Option Int :=
  let day := if mTok ≤ 12 then dTok else mTok
  let mon := if mTok ≤ 12 then mTok else dTok
  if validYMD (y : Int) mon day then
    let z := daysFromCivil (y : Int) mon day
    if pdTsMinDay ≤ z ∧ z ≤ pdTsMaxDay then some z else none
  else none

/-! ### Date Extractor (_extract_date_from_path) -/

/-- Match of the regular expression pattern of two digits, a dot, two
digits, a dot and four digits at the head of a character list (Python
backslash-d modelled as the ASCII digits the report paths use). -/
def matchTriple (l : List Char) : Option (Nat × Nat × Nat) :=
  match l with
  | d1 :: d2 :: '.' :: m1 :: m2 :: '.' :: y1 :: y2 :: y3 :: y4 :: _ =>
    if d1.isDigit && d2.isDigit && m1.isDigit && m2.isDigit
        && y1.isDigit && y2.isDigit && y3.isDigit && y4.isDigit then
      some (digitsVal [d1, d2], digitsVal [m1, m2], digitsVal [y1, y2, y3, y4])
    else none
  | _ => none

/-- Leftmost match of the pattern, as found by re.search. -/
def firstMatch : List Char → Option (Nat × Nat × Nat)
  | [] => none
  | l@(_ :: t) =>
    match matchTriple l with
    | some r => some r
    | none => firstMatch t

/-- Embedding of _extract_date_from_path (src/etl.py lines 19-24).  The
source returns None when the pattern is absent and NaT when parsing
coerces; both absences are none here, exactly as the caller treats them. -/
def extract_date_from_path (path : String) : Option Int :=
  match firstMatch path.data with
  | none => none
  | some (dd, mm, yyyy) => to_datetime_dayfirst dd mm yyyy

/-! ### Row/Block Locator (_read_total_a_pagar_wide) -/

/-- Bank vocabulary BANKS_ALLOWED of src/etl.py. -/
def BANKS_ALLOWED : List (List Char) :=
  ["BCP".data, "SCOTIABANK".data, "SANTANDER".data, "INTERBANK".data, "TOTAL".data]

/-- Currency vocabulary CCY_ALLOWED of src/etl.py. -/
def CCY_ALLOWED : List (List Char) :=
  ["PEN".data, "USD".data]

/-- Canonical wide column vocabulary FINAL_COLS of src/etl.py, in source
order. -/
def FINAL_COLS : List String :=
  ["BCP_PEN", "BCP_USD",
   "SCOTIABANK_PEN", "SCOTIABANK_USD",
   "SANTANDER_PEN", "SANTANDER_USD",
   "INTERBANK_PEN", "INTERBANK_USD",
   "TOTAL_PEN", "TOTAL_USD"]

/-- Whether pat starts the list (Python startswith on characters). -/
def startsWithL : List Char → List Char → Bool
  | [], _ => true
  | _ :: _, [] => false
  | p :: ps, c :: cs => p = c && startsWithL ps cs

/-- Whether pat occurs as a contiguous substring (Python "in"). -/
def hasSub (pat : List Char) : List Char → Bool
  | [] => startsWithL pat []
  | l@(_ :: t) => startsWithL pat l || hasSub pat t

/-- A raw report grid: rows of cells, as read with header=None.  pandas
pads ragged rows with NaN up to the widest row. -/
abbrev Grid := List (List Cell)

/-- Row predicate of the total-row mask: some cell, stripped and
uppercased, equals the label TOTAL A PAGAR. -/
def rowHasTotalLabel (row : List Cell) : Bool :=
  row.any fun c => upperL (stripL (cellStr c).data) = "TOTAL A PAGAR".data

/-- Number of columns of the padded DataFrame. -/
def gridWidth (g : Grid) : Nat :=
  g.foldl (fun a r => max a r.length) 0

/-- Pad a row with NaN cells up to the frame width. -/
def padTo (w : Nat) (row : List Cell) : List Cell :=
  row ++ List.replicate (w - row.length) Cell.na

/-- Forward-fill carrying the last non-null cell (pandas Series.ffill). -/
def ffillFrom (last : Cell) : List Cell → List Cell
  | [] => []
  | .na :: t => last :: ffillFrom last t
  | .s v :: t => .s v :: ffillFrom (.s v) t

/-- Forward-fill of one header row. -/
def ffillRow (l : List Cell) : List Cell :=
  ffillFrom .na l

/-- Normalization applied to both header rows: str, strip, upper, and
newlines to spaces. -/
def headerNorm (c : Cell) : List Char :=
  nlToSpace (upperL (stripL (cellStr c).data))

/-- The bank-substring normalization chain of the source, in its order. -/
def normBank (bank : List Char) : List Char :=
  if hasSub "BCP".data bank then "BCP".data
  else if hasSub "SCOTIABANK".data bank then "SCOTIABANK".data
  else if hasSub "SANTANDER".data bank then "SANTANDER".data
  else if hasSub "INTERBANK".data bank then "INTERBANK".data
  else if hasSub "TOTAL".data bank then "TOTAL".data
  else bank

/-- The forward-filled bank header, currency header and value row used
once the total row has been located at index i (with 2 ≤ i). -/
def headerRowsOf (g : Grid) (i : Nat) : List Cell × List Cell × List Cell :=
  let w := gridWidth g
  (ffillRow (padTo w (g.getD (i - 2) [])),
   ffillRow (padTo w (g.getD (i - 1) [])),
   padTo w (g.getD i []))

/-- Key contributed by column c, when both its normalized bank and
currency are recognized. -/
def recognizedKeyAt (hb hc : List Cell) (c : Nat) : Option String :=
  let bank := normBank (headerNorm (hb.getD c .na))
  let ccy := headerNorm (hc.getD c .na)
  if bank ∈ BANKS_ALLOWED ∧ ccy ∈ CCY_ALLOWED then
    some ⟨bank ++ '_' :: ccy⟩
  else none

/-- Python dict assignment d[k] = v: update in place, else append. -/
def updateAssoc (k : String) (v : Rat) : List (String × Rat) → List (String × Rat)
  | [] => [(k, v)]
  | (k', v') :: t => if k' = k then (k, v) :: t else (k', v') :: updateAssoc k v t

/-- Python dict.setdefault(k, 0.0). -/
def setDefault0 (d : List (String × Rat)) (k : String) : List (String × Rat) :=
  if (d.lookup k).isSome then d else d ++ [(k, 0)]

/-- Processing of one column of the total row: a recognized column
assigns its coerced value under its bank_currency key, any other column
is dropped. -/
def wideStep (hb hc vals : List Cell) (d : List (String × Rat)) (c : Nat) :
    List (String × Rat) :=
  match recognizedKeyAt hb hc c with
  | some k => updateAssoc k (coerce_money (vals.getD c .na)) d
  | none => d

/-- Keys of the columns recognized once the total row sits at index i. -/
def recognizedColsOf (g : Grid) (i : Nat) : List String :=
  (List.range (gridWidth g)).filterMap
    (fun c => recognizedKeyAt (headerRowsOf g i).1 (headerRowsOf g i).2.1 c)

/-- Embedding of _read_total_a_pagar_wide (src/etl.py lines 40-103) on an
already-read grid.  A failed read of the file or sheet also returns none
in the source; the grid argument represents a successful read. -/
def read_total_a_pagar_wide (g : Grid) : Option (List (String × Rat)) :=
  match g.findIdx? rowHasTotalLabel with
  | none => none
  | some i =>
    if i < 2 then none
    else
      let hb := (headerRowsOf g i).1
      let hc := (headerRowsOf g i).2.1
      let vals := (headerRowsOf g i).2.2
      let wide := (List.range (gridWidth g)).foldl (wideStep hb hc vals) []
      if wide = [] then none
      else some (FINAL_COLS.foldl setDefault0 wide)

/-! ### Folder Loader (load_payments_folder) and Multi-Period Loader -/

/-- One surviving wide record: the extracted date plus the wide dict. -/
structure WideRow where
  fecha : Int
  cols : List (String × Rat)
deriving DecidableEq, Repr

/-- Value of a wide column. -/
def valAt (w : WideRow) (k : String) : Rat :=
  (w.cols.lookup k).getD 0

/-- One Long Record of the Payments Table. -/
structure PRow where
  fecha : Int
  banco : String
  moneda : String
  valor : Rat
  diaNombre : String
deriving DecidableEq, Repr

/-- Ordering of wide records by date (sort_values on FECHA). -/
def wideLE (a b : WideRow) : Prop := a.fecha ≤ b.fecha

instance : DecidableRel wideLE :=
  fun a b => inferInstanceAs (Decidable (a.fecha ≤ b.fecha))

instance : IsTotal WideRow wideLE := ⟨fun a b => Int.le_total a.fecha b.fecha⟩

instance : IsTrans WideRow wideLE := ⟨fun _ _ _ h1 h2 => le_trans h1 h2⟩

/-- Ordering of long records by date (sort_values on FECHA). -/
def rowLE (a b : PRow) : Prop := a.fecha ≤ b.fecha

instance : DecidableRel rowLE :=
  fun a b => inferInstanceAs (Decidable (a.fecha ≤ b.fecha))

instance : IsTotal PRow rowLE := ⟨fun a b => Int.le_total a.fecha b.fecha⟩

instance : IsTrans PRow rowLE := ⟨fun _ _ _ h1 h2 => le_trans h1 h2⟩

/-- str.split("_", n=1): the attribute name split at its first underscore
into BANCO and MONEDA. -/
def splitBM (c : String) : String × String :=
  let b := c.data.takeWhile (fun x => x ≠ '_')
  (⟨b⟩, ⟨c.data.drop (b.length + 1)⟩)

/-- One melted long record for attribute column c of wide record w, with
the derived DiaNombre weekday name. -/
def mkLong (c : String) (w : WideRow) : PRow :=
  ⟨w.fecha, (splitBM c).1, (splitBM c).2, valAt w c, dayName (pdDow w.fecha)⟩

/-- pd.melt with id_vars FECHA: column-major traversal, one block per
value column in frame column order (the canonical FINAL_COLS order, which
every surviving record carries). -/
def meltWide (ws : List WideRow) : List PRow :=
  FINAL_COLS.flatMap fun c => ws.map (mkLong c)

/-- One enumerated spreadsheet file: its path and its RESUMEN grid.  The
folder argument of the loader is modelled as the list of files rglob
enumerates under it, each with the grid a successful read yields. -/
structure FileEntry where
  path : String
  grid : Grid
deriving DecidableEq, Repr

/-- Final path component. -/
def baseName (p : String) : String :=
  ⟨(p.data.reverse.takeWhile (fun c => c ≠ '/')).reverse⟩

/-- Editor lock-file filter: name starts with the tilde-dollar marker. -/
def isLockFile (p : String) : Bool :=
  startsWithL "~$".data (baseName p).data

/-- Per-file stage of the loader: extract the date from the path (skip
the file when absent), then parse the total block (skip when absent). -/
def parseFile (f : FileEntry) : Option WideRow :=
  match extract_date_from_path f.path with
  | none => none
  | some z =>
    match read_total_a_pagar_wide f.grid with
    | none => none
    | some cols => some ⟨z, cols⟩

/-- Embedding of load_payments_folder (src/etl.py lines 107-136): filter
lock files, parse each file, return the empty table if nothing survives,
otherwise sort the wide records by FECHA and melt to long form.
sort_values is modelled by insertion sort; the source's default quicksort
is not stable, so only the ordering and multiset of rows are relied on. -/
def load_payments_folder (files : List FileEntry) : List PRow :=
  let fs := files.filter fun f => !(isLockFile f.path)
  let rows := fs.filterMap parseFile
  match rows with
  | [] => []
  | _ => meltWide (List.insertionSort wideLE rows)

/-- Embedding of load_payments_folders (src/etl.py lines 139-150): load
each folder, discard empty results, concatenate and re-sort by FECHA. -/
def load_payments_folders (folders : List (List FileEntry)) : List PRow :=
  let dfs := (folders.map load_payments_folder).filter fun d => d ≠ []
  match dfs with
  | [] => []
  | _ => List.insertionSort rowLE dfs.flatten

/-! ### Series Preparer and forecasters (src/forecast.py) -/

/-- A pandas Series indexed by date: (index, value) pairs in index order. -/
abbrev Series := List (Int × Rat)

/-- A filtered Payments Table row as prepare_series receives it; monto is
the MONTO column, absent until prepare_series assigns it. -/
structure FRow where
  fecha : Int
  banco : String
  moneda : String
  valor : Rat
  diaNombre : String
  monto : Option Rat
deriving DecidableEq, Repr

/-- Sorted, duplicate-free groupby keys (pandas groupby sorts keys). -/
def sortedKeys (l : List Int) : List Int :=
  (List.insertionSort (fun a b : Int => a ≤ b) l).dedup

/-- groupby("FECHA")["MONTO"].sum(): one summed value per date, dates
ascending (sort_index is a no-op on the already-sorted keys). -/
def groupSumMonto (t : List FRow) : List (Int × Rat) :=
  (sortedKeys (t.map (fun r => r.fecha))).map fun d =>
    (d, ((t.filter (fun r => r.fecha = d)).map (fun r => r.monto.getD 0)).sum)

/-- All days from a to b inclusive. -/
def intRange (a b : Int) : List Int :=
  (List.range (b - a + 1).toNat).map (fun i : Nat => a + (i : Int))

/-- pd.date_range(start, end, freq) for the frequencies the source
requests: daily, weekly anchored Tuesday or Friday, and generic weekly
(anchored Sunday). -/
def dateRange (f : String) (a b : Int) : List Int :=
  if f = "D" then intRange a b
  else if f = "W-TUE" then (intRange a b).filter (fun d => pdDow d = 1)
  else if f = "W-FRI" then (intRange a b).filter (fun d => pdDow d = 4)
  else if f = "W" then (intRange a b).filter (fun d => pdDow d = 6)
  else []

/-- Last index of a nonempty series, given its head. -/
def lastIdx (d0 : Int) (s : Series) : Int :=
  (s.map Prod.fst).foldl (fun _ x => x) d0

/-- Embedding of prepare_series (src/forecast.py lines 7-20).  The first
component is the caller's table after the call: the source assigns the
MONTO column in place on its argument.  The second is the returned
series: per-date sums of MONTO, reindexed onto the full calendar from the
first to the last observed date when a frequency is given, absent dates
filled with 0.0.  On an empty table with a frequency the source raises
inside date_range (NaT endpoints); no claim reaches that call, and it is
rendered as the empty series. -/
def prepare_series (t : List FRow) (freq : Option String) : List FRow × Series :=
  let t' := t.map fun r => { r with monto := some (-r.valor) }
  let s := groupSumMonto t'
  (t',
    match freq with
    | none => s
    | some f =>
      match s with
      | [] => []
      | (d0, _) :: _ =>
        (dateRange f d0 (lastIdx d0 s)).map fun d => (d, (s.lookup d).getD 0))

/-- Mode of the weekday distribution: pandas mode() lists the most
frequent values in ascending order and iloc[0] takes the smallest. -/
def modeDow (l : List Nat) : Nat :=
  [0, 1, 2, 3, 4, 5, 6].foldl
    (fun best d => if l.count d > l.count best then d else best) 0

/-- Embedding of infer_weekly_freq (src/forecast.py lines 23-36). -/
def infer_weekly_freq (s : Series) : String :=
  let mode := modeDow (s.map fun p => pdDow p.1)
  if mode = 1 then "W-TUE" else if mode = 4 then "W-FRI" else "W"

/-- Embedding of to_regular_weekly (src/forecast.py lines 39-48): asfreq
onto the inferred weekly grid spanning the first to the last index entry,
then fillna(0.0).  Dates off the weekly grid are dropped; weeks with no
entry become 0.0. -/
def to_regular_weekly (s : Series) : Series :=
  let f := infer_weekly_freq s
  match s with
  | [] => []
  | (d0, _) :: _ =>
    (dateRange f d0 (lastIdx d0 s)).map fun d => (d, (s.lookup d).getD 0)

/-- Constructor arguments the source hands to the external
ExponentialSmoothing fitter; the optimizer's numeric output is opaque and
not modelled. -/
structure ESArgs where
  endog : Series
  trend : Option String
  seasonal : Option String
  seasonalPeriods : Nat
deriving DecidableEq, Repr

/-- Documented precondition of the external statsmodels fitter: a
seasonal ExponentialSmoothing model needs at least two full seasonal
cycles of data; with fewer observations the constructor raises instead of
fitting.  false means that call raises. -/
def esFitOk (a : ESArgs) : Bool :=
  !(a.seasonal.isSome && a.endog.length < 2 * a.seasonalPeriods)

/-- Embedding of forecast_holt_winters (src/forecast.py lines 51-63): the
series is regularized to weekly and returned as the history component,
and the model is always built with additive trend, additive seasonality
and the requested seasonal_periods; there is no branch on history length. -/
def forecast_holt_winters (series : Series) (steps seasonal_periods : Nat) :
    Series × ESArgs × Nat :=
  let y := to_regular_weekly series
  (y, { endog := y, trend := some "add", seasonal := some "add",
        seasonalPeriods := seasonal_periods }, steps)

/-- Constructor arguments the source hands to the external SARIMAX
fitter. -/
structure SarimaxArgs where
  endog : Series
  order : Nat × Nat × Nat
  seasonalOrder : Nat × Nat × Nat × Nat
  enforceStationarity : Bool
  enforceInvertibility : Bool
deriving DecidableEq, Repr

/-- Embedding of forecast_sarima (src/forecast.py lines 66-81). -/
def forecast_sarima (series : Series) (steps s : Nat) :
    Series × SarimaxArgs × Nat :=
  let y := to_regular_weekly series
  (y, { endog := y, order := (1, 1, 1), seasonalOrder := (1, 1, 1, s),
        enforceStationarity := false, enforceInvertibility := false }, steps)

/-! ### Concrete fixtures used by witnesses and counterexamples -/

/-- Minimal recognizable RESUMEN grid: a merged-style header pair and the
labelled total row, with one recognized BCP/PEN column worth 100. -/
def exGrid : Grid :=
  [[Cell.na, Cell.s "BCP"],
   [Cell.na, Cell.s "PEN"],
   [Cell.s "TOTAL A PAGAR", Cell.s "100"]]

/-- File dated 01.01.2025. -/
def exFileJan1 : FileEntry := ⟨"2025/Pagos 01.01.2025.xlsx", exGrid⟩

/-- Second file carrying the same date 01.01.2025. -/
def exFileJan1b : FileEntry := ⟨"otros 01.01.2025.xlsx", exGrid⟩

/-- File dated 03.01.2025. -/
def exFileJan3 : FileEntry := ⟨"2025/Pagos 03.01.2025.xlsx", exGrid⟩

/-- Two consecutive Tuesdays: a weekly-regular prepared series that is
nonetheless far shorter than two seasonal cycles of 7. -/
def regSeries : Series :=
  [(daysFromCivil 2025 1 7, 100), (daysFromCivil 2025 1 14, 50)]

/-- Two Tuesdays two weeks apart: weekly regularization inserts the
missing middle week. -/
def gapSeries : Series :=
  [(daysFromCivil 2025 1 7, 100), (daysFromCivil 2025 1 21, 50)]

/-- Filtered table with records only on 2025-01-01 and 2025-01-05, both
with Valor -100 (the worked example of the Series Preparer). -/
def c7Table : List FRow :=
  [⟨daysFromCivil 2025 1 1, "SCOTIABANK", "PEN", -100, "Wednesday", none⟩,
   ⟨daysFromCivil 2025 1 5, "SCOTIABANK", "PEN", -100, "Sunday", none⟩]

/-- Weekly spacing: each index entry is exactly seven days after its
predecessor. -/
def weeklyStep : Series → Bool
  | [] => true
  | [_] => true
  | p :: q :: t => (q.1 == p.1 + 7) && weeklyStep (q :: t)

/-- A series already on a regular weekly grid that the source's anchor
inference reproduces: nonempty, all entries on one weekday that is
Tuesday, Friday or Sunday (the anchors infer_weekly_freq can emit), and
consecutive entries seven days apart. -/
def regularWeekly : Series → Bool
  | [] => false
  | (d0, v0) :: rest =>
    (pdDow d0 == 1 || pdDow d0 == 4 || pdDow d0 == 6) &&
    (rest.all fun p => pdDow p.1 == pdDow d0) &&
    weeklyStep ((d0, v0) :: rest)

/-! ### C10: prepare_series mutates its argument -/

/-- C10: prepare_series assigns MONTO = -Valor in place on the caller's
table (the first component models the caller's table after the call),
while every pre-existing column of every row is left unchanged. -/
theorem c10_prepare_series_mutation (t : List FRow) (freq : Option String) :
    ((prepare_series t freq).1).map
        (fun r => (r.fecha, r.banco, r.moneda, r.valor, r.diaNombre)) =
      t.map (fun r => (r.fecha, r.banco, r.moneda, r.valor, r.diaNombre)) ∧
    ((prepare_series t freq).1).map (fun r => r.monto) =
      t.map (fun r => some (-r.valor)) := by
  constructor <;> simp [prepare_series, List.map_map, Function.comp]

/-! ### C4: the Report Cell Coercer -/

/-- C4: coerce_money never raises and yields a number for every cell: a
null value maps to 0.0, a trimmed "-" or empty string maps to 0.0,
"1,234.50" parses to 1234.5 after comma stripping, any string the decimal
parser rejects maps to 0.0, and any string it accepts maps to its parsed
value. -/
theorem c4_coerce_money :
    coerce_money .na = 0 ∧
    (∀ v : String, stripL v.data = ['-'] ∨ stripL v.data = [] →
      coerce_money (.s v) = 0) ∧
    coerce_money (.s "1,234.50") = (1234.5 : Rat) ∧
    coerce_money (.s "abc") = 0 ∧
    (∀ v : String, pyFloat? (dropCommas (stripL v.data)) = none →
      coerce_money (.s v) = 0) ∧
    (∀ v : String, ∀ q : Rat, stripL v.data ≠ ['-'] → stripL v.data ≠ [] →
      pyFloat? (dropCommas (stripL v.data)) = some q →
      coerce_money (.s v) = q) := by
  have hlit : mkRat 2469 2 = (1234.5 : Rat) := by
    rw [Rat.mkRat_eq_divInt]
    norm_num [Rat.divInt_eq_div]
  refine ⟨rfl, ?_, (by decide : coerce_money (.s "1,234.50") = mkRat 2469 2).trans hlit,
    by decide, ?_, ?_⟩
  · intro v h
    rcases h with h | h <;> simp [coerce_money, h]
  · intro v h
    by_cases h1 : stripL v.data = ['-'] ∨ stripL v.data = []
    · rcases h1 with h1 | h1 <;> simp [coerce_money, h1]
    · push_neg at h1
      simp [coerce_money, h1.1, h1.2, h]
  · intro v q h1 h2 h3
    simp [coerce_money, h1, h2, h3]

/-- C4 witness: the general clauses evaluated at concrete cells. -/
theorem c4_coerce_money_witness :
    (stripL " - ".data = ['-'] ∨ stripL " - ".data = []) ∧
    coerce_money (.s " - ") = 0 ∧
    pyFloat? (dropCommas (stripL "x2".data)) = none ∧
    coerce_money (.s "x2") = 0 ∧
    (stripL " 2,500 ".data ≠ ['-'] ∧ stripL " 2,500 ".data ≠ [] ∧
      pyFloat? (dropCommas (stripL " 2,500 ".data)) = some 2500) ∧
    coerce_money (.s " 2,500 ") = 2500 :=
  ⟨by decide, c4_coerce_money.2.1 " - " (by decide),
   by decide, c4_coerce_money.2.2.2.2.1 "x2" (by decide),
   ⟨by decide, by decide, by decide⟩,
   c4_coerce_money.2.2.2.2.2 " 2,500 " 2500 (by decide) (by decide) (by decide)⟩

/-! ### C1: no trend-only fallback in forecast_holt_winters -/

/-- C1 counterexample: for the two-point prepared series regSeries
(fewer than 2 * 7 points) the source still requests an additive seasonal
component with period 7 — the model handed to the external fitter is not
trend-only, and the fitter's documented two-full-cycles precondition
fails, so the call raises instead of forecasting. -/
theorem c1_counterexample :
    (forecast_holt_winters regSeries 30 7).2.1.seasonal = some "add" ∧
    (forecast_holt_winters regSeries 30 7).2.1.seasonal ≠ none ∧
    (forecast_holt_winters regSeries 30 7).2.1.endog.length < 2 * 7 ∧
    esFitOk (forecast_holt_winters regSeries 30 7).2.1 = false := by
  decide

/-- C1 (amended): forecast_holt_winters applies no history-length check
and never falls back: for every series and requested seasonal period it
builds an additive-trend, additive-seasonal model with that period, and
whenever the regularized history is shorter than two seasonal cycles the
external fit's documented precondition fails (the call raises). -/
theorem c1_holt_winters_no_fallback (s : Series) (steps sp : Nat)
    (h : (to_regular_weekly s).length < 2 * sp) :
    (forecast_holt_winters s steps sp).2.1.trend = some "add" ∧
    (forecast_holt_winters s steps sp).2.1.seasonal = some "add" ∧
    (forecast_holt_winters s steps sp).2.1.seasonalPeriods = sp ∧
    esFitOk (forecast_holt_winters s steps sp).2.1 = false := by
  refine ⟨rfl, rfl, rfl, ?_⟩
  simp [esFitOk, forecast_holt_winters, h]

/-- C1 witness: the amended theorem applied to regSeries with period 7. -/
theorem c1_holt_winters_no_fallback_witness :
    (to_regular_weekly regSeries).length < 2 * 7 ∧
    ((forecast_holt_winters regSeries 30 7).2.1.trend = some "add" ∧
     (forecast_holt_winters regSeries 30 7).2.1.seasonal = some "add" ∧
     (forecast_holt_winters regSeries 30 7).2.1.seasonalPeriods = 7 ∧
     esFitOk (forecast_holt_winters regSeries 30 7).2.1 = false) :=
  ⟨by decide, c1_holt_winters_no_fallback regSeries 30 7 (by decide)⟩

/-! ### C3: the history component returned by the forecasters -/

/-- C3 counterexample: for gapSeries (two Tuesdays two weeks apart) both
forecasters return the weekly-regularized three-point series, not the
caller's two-point input. -/
theorem c3_counterexample :
    (forecast_holt_winters gapSeries 30 7).1 ≠ gapSeries ∧
    (forecast_sarima gapSeries 30 7).1 ≠ gapSeries := by
  decide

/-! ### C2 and C8 counterexamples -/

/-- C2 counterexample: a folder with files dated 01.01.2025 and
03.01.2025 yields a long table whose FECHA column alternates between the
two dates (melt is column-major over the ten attribute columns), so
consecutive rows are not in nondecreasing FECHA order. -/
theorem c2_counterexample :
    ¬ List.Chain' (fun a b : Int => a ≤ b)
        ((load_payments_folder [exFileJan1, exFileJan3]).map (fun r => r.fecha)) := by
  have hmap : (load_payments_folder [exFileJan1, exFileJan3]).map (fun r => r.fecha) =
      [20089, 20091, 20089, 20091, 20089, 20091, 20089, 20091, 20089, 20091,
       20089, 20091, 20089, 20091, 20089, 20091, 20089, 20091, 20089, 20091] := by
    decide
  rw [hmap]
  norm_num [List.chain'_cons]

/-- C8 counterexample: two folders with disjoint date ranges (first
folder dated 01.01.2025, second 03.01.2025) whose combined output
nonetheless contains duplicated rows, because the first folder holds two
files carrying the same date and identical totals; nothing deduplicates
them. -/
theorem c8_counterexample :
    (∀ r1 ∈ load_payments_folder [exFileJan1, exFileJan1b],
     ∀ r2 ∈ load_payments_folder [exFileJan3], r1.fecha ≠ r2.fecha) ∧
    ¬ (load_payments_folders [[exFileJan1, exFileJan1b], [exFileJan3]]).Nodup := by
  exact ⟨by decide, by decide⟩

/-! ### C9: melt round-trip, and C2 amended -/

/-- Sum of a pointwise sum of two maps splits. -/
theorem sum_map_add {α : Type} (f g : α → Rat) (l : List α) :
    (l.map fun x => f x + g x).sum = (l.map f).sum + (l.map g).sum := by
  induction l with
  | nil => simp
  | cons a t ih => simp [ih]; ring

/-- Summing the melted Valor entries of a given date recovers, for any
column list, the summed wide values of that date. -/
theorem melt_sum_by_date (cs : List String) (ws : List WideRow) (d : Int) :
    (((cs.flatMap fun c => ws.map (mkLong c)).filter fun r => r.fecha = d).map
        (fun r => r.valor)).sum =
      ((ws.filter fun w => w.fecha = d).map fun w => ((cs.map (valAt w)).sum)).sum := by
  induction cs with
  | nil => simp
  | cons c cs ih =>
    simp only [List.flatMap_cons, List.filter_append, List.map_append, List.sum_append, ih,
      List.map_cons, List.sum_cons]
    rw [List.filter_map, List.map_map]
    have hcomp : ((fun r => decide (r.fecha = d)) ∘ mkLong c) =
        fun w : WideRow => decide (w.fecha = d) := rfl
    have hval : ((fun r : PRow => r.valor) ∘ mkLong c) = fun w : WideRow => valAt w c := rfl
    rw [hcomp, hval, sum_map_add (fun w => valAt w c) (fun w => (cs.map (valAt w)).sum)]

/-- C9: melting Wide Records to Long Records and re-aggregating by date
is lossless — for every date, the sum of Valor over the long rows of that
date equals the sum of the ten original wide column values of the wide
records of that date. -/
theorem c9_melt_roundtrip (ws : List WideRow) (d : Int) :
    (((meltWide ws).filter fun r => r.fecha = d).map (fun r => r.valor)).sum =
      ((ws.filter fun w => w.fecha = d).map
        fun w => ((FINAL_COLS.map (valAt w)).sum)).sum :=
  melt_sum_by_date FINAL_COLS ws d

/-- Dates of the melted table: one identical block of the sorted wide
dates per attribute column. -/
theorem map_fecha_melt (ws : List WideRow) :
    (meltWide ws).map (fun r => r.fecha) =
      FINAL_COLS.flatMap (fun _ => ws.map (fun w => w.fecha)) := by
  simp only [meltWide, List.map_flatMap, List.map_map]
  rfl

/-- C2 (amended): the Folder Loader sorts the wide table by FECHA before
melting, so the long table consists of one block per attribute column,
each block listing all dates in nondecreasing order; the table as a whole
is not sorted by FECHA once it holds more than one date. -/
theorem c2_folder_loader_blockwise (files : List FileEntry) :
    ∃ F : List Int, List.Sorted (fun a b : Int => a ≤ b) F ∧
      (load_payments_folder files).map (fun r => r.fecha) =
        FINAL_COLS.flatMap (fun _ => F) := by
  unfold load_payments_folder
  cases h : (files.filter fun f => !(isLockFile f.path)).filterMap parseFile with
  | nil => exact ⟨[], List.sorted_nil, by simp [h]⟩
  | cons a t =>
    refine ⟨(List.insertionSort wideLE (a :: t)).map (fun w => w.fecha), ?_, ?_⟩
    · have hs := List.sorted_insertionSort wideLE (a :: t)
      exact List.Pairwise.map _ (fun x y hxy => hxy) hs
    · simp only [h]
      exact map_fecha_melt _

/-! ### C8 amended: Multi-Period Loader on two folders -/

/-- Loading two folders is sorting the concatenation of their loads:
empty loads are discarded before concatenation, which changes nothing. -/
theorem loaders_pair (fs1 fs2 : List FileEntry) :
    load_payments_folders [fs1, fs2] =
      List.insertionSort rowLE (load_payments_folder fs1 ++ load_payments_folder fs2) := by
  unfold load_payments_folders
  by_cases h1 : load_payments_folder fs1 = [] <;>
    by_cases h2 : load_payments_folder fs2 = [] <;>
      simp [h1, h2]

/-- C8 (amended): for two folders whose loads share no date, the
Multi-Period Loader's output is sorted by FECHA and its length is the sum
of the two loads' lengths; it is duplicate-free provided each individual
load is itself duplicate-free (concatenating disjoint-dated folders
introduces no duplicates, but a folder holding two same-dated identical
files already duplicates rows on its own). -/
theorem c8_multi_period_loader (fs1 fs2 : List FileEntry)
    (hdisj : ∀ r1 ∈ load_payments_folder fs1, ∀ r2 ∈ load_payments_folder fs2,
      r1.fecha ≠ r2.fecha)
    (h1 : (load_payments_folder fs1).Nodup)
    (h2 : (load_payments_folder fs2).Nodup) :
    List.Sorted rowLE (load_payments_folders [fs1, fs2]) ∧
    (load_payments_folders [fs1, fs2]).Nodup ∧
    (load_payments_folders [fs1, fs2]).length =
      (load_payments_folder fs1).length + (load_payments_folder fs2).length := by
  rw [loaders_pair]
  refine ⟨List.sorted_insertionSort _ _, ?_, ?_⟩
  · rw [(List.perm_insertionSort rowLE _).nodup_iff, List.nodup_append]
    exact ⟨h1, h2, fun r hr1 hr2 => hdisj r hr1 r hr2 rfl⟩
  · rw [List.length_insertionSort, List.length_append]

/-- C8 witness: the amended theorem applied to two one-file folders dated
01.01.2025 and 03.01.2025. -/
theorem c8_multi_period_loader_witness :
    ((∀ r1 ∈ load_payments_folder [exFileJan1],
      ∀ r2 ∈ load_payments_folder [exFileJan3], r1.fecha ≠ r2.fecha) ∧
     (load_payments_folder [exFileJan1]).Nodup ∧
     (load_payments_folder [exFileJan3]).Nodup) ∧
    (List.Sorted rowLE (load_payments_folders [[exFileJan1], [exFileJan3]]) ∧
     (load_payments_folders [[exFileJan1], [exFileJan3]]).Nodup ∧
     (load_payments_folders [[exFileJan1], [exFileJan3]]).length =
       (load_payments_folder [exFileJan1]).length +
         (load_payments_folder [exFileJan3]).length) :=
  ⟨⟨by decide, by decide, by decide⟩,
   c8_multi_period_loader [exFileJan1] [exFileJan3] (by decide) (by decide) (by decide)⟩

/-! ### C3 amended: what the forecasters return as history -/

/-- Membership in an inclusive integer range. -/
theorem mem_intRange {d a b : Int} : d ∈ intRange a b ↔ a ≤ d ∧ d ≤ b := by
  simp only [intRange, List.mem_map, List.mem_range]
  constructor
  · rintro ⟨i, hi, rfl⟩
    omega
  · rintro ⟨h1, h2⟩
    exact ⟨(d - a).toNat, by omega, by omega⟩

/-- An inclusive integer range splits at any interior point. -/
theorem intRange_split (a b c : Int) (h1 : a ≤ b + 1) (h2 : b ≤ c) :
    intRange a c = intRange a b ++ intRange (b + 1) c := by
  unfold intRange
  have h3 : (c - a + 1).toNat = (b - a + 1).toNat + (c - b).toNat := by omega
  have h4 : (c - (b + 1) + 1).toNat = (c - b).toNat := by omega
  rw [h3, List.range_add, List.map_append, List.map_map, h4]
  congr 1
  apply List.map_congr_left
  intro i hi
  simp only [List.mem_range] at hi
  simp only [Function.comp]
  omega

/-- Of seven consecutive days starting on the anchor weekday, only the
first lies on the anchor. -/
theorem seven_filter (a : Nat) (d0 : Int) (h : pdDow d0 = a) :
    (intRange d0 (d0 + 6)).filter (fun d => pdDow d = a) = [d0] := by
  have h7 : (d0 + 6 - d0 + 1).toNat = 7 := by omega
  have hr : intRange d0 (d0 + 6) =
      [d0, d0 + 1, d0 + 2, d0 + 3, d0 + 4, d0 + 5, d0 + 6] := by
    unfold intRange
    rw [h7]
    show (List.map (fun i : Nat => d0 + (i : Int)) [0, 1, 2, 3, 4, 5, 6]) = _
    simp
  rw [hr]
  have hne : ∀ k : Int, d0 < k → k ≤ d0 + 6 → ¬ (pdDow k = a) := by
    intro k hk1 hk2
    simp only [pdDow] at h ⊢
    omega
  have e1 := hne (d0 + 1) (by omega) (by omega)
  have e2 := hne (d0 + 2) (by omega) (by omega)
  have e3 := hne (d0 + 3) (by omega) (by omega)
  have e4 := hne (d0 + 4) (by omega) (by omega)
  have e5 := hne (d0 + 5) (by omega) (by omega)
  have e6 := hne (d0 + 6) (by omega) (by omega)
  simp [List.filter, h, e1, e2, e3, e4, e5, e6]

/-- The last index of a weekly-spaced series. -/
theorem lastIdx_weekly : ∀ (t : Series) (d0 : Int) (v0 : Rat),
    weeklyStep ((d0, v0) :: t) = true →
    lastIdx d0 ((d0, v0) :: t) = d0 + 7 * t.length := by
  intro t
  induction t with
  | nil => intro d0 v0 _; simp [lastIdx]
  | cons p t ih =>
    intro d0 v0 hstep
    obtain ⟨d1, v1⟩ := p
    simp only [weeklyStep, Bool.and_eq_true, beq_iff_eq] at hstep
    obtain ⟨hd1, hstep'⟩ := hstep
    have : lastIdx d0 ((d0, v0) :: (d1, v1) :: t) = lastIdx d1 ((d1, v1) :: t) := rfl
    rw [this, ih d1 v1 hstep', hd1]
    simp
    ring

/-- Reindexing a weekly-regular series onto its own anchored weekly
calendar and filling gaps reproduces the series. -/
theorem weekly_reconstruct (a : Nat) :
    ∀ (t : Series) (d0 : Int) (v0 : Rat),
      pdDow d0 = a →
      (∀ p ∈ t, pdDow p.1 = a) →
      weeklyStep ((d0, v0) :: t) = true →
      ((intRange d0 (lastIdx d0 ((d0, v0) :: t))).filter
          (fun d => pdDow d = a)).map
        (fun d => (d, ((((d0, v0) :: t).lookup d).getD 0))) = (d0, v0) :: t := by
  intro t
  induction t with
  | nil =>
    intro d0 v0 h0 _ _
    have hL : lastIdx d0 [(d0, v0)] = d0 := rfl
    rw [hL]
    have hr : intRange d0 d0 = [d0] := by
      unfold intRange
      have h1 : (d0 - d0 + 1).toNat = 1 := by omega
      rw [h1]
      show (List.map (fun i : Nat => d0 + (i : Int)) [0]) = [d0]
      simp
    rw [hr]
    simp [List.filter, h0]
  | cons p t ih =>
    intro d0 v0 h0 hall hstep
    obtain ⟨d1, v1⟩ := p
    simp only [weeklyStep, Bool.and_eq_true, beq_iff_eq] at hstep
    obtain ⟨hd1, hstep'⟩ := hstep
    have h1 : pdDow d1 = a := hall (d1, v1) (List.mem_cons_self _ _)
    have hall' : ∀ q ∈ t, pdDow q.1 = a := fun q hq => hall q (List.mem_cons_of_mem _ hq)
    have hLcons : lastIdx d0 ((d0, v0) :: (d1, v1) :: t) = lastIdx d1 ((d1, v1) :: t) := rfl
    rw [hLcons]
    have hLval : lastIdx d1 ((d1, v1) :: t) = d1 + 7 * t.length :=
      lastIdx_weekly t d1 v1 hstep'
    have hsplit := intRange_split d0 (d0 + 6) (lastIdx d1 ((d1, v1) :: t))
      (by omega) (by omega)
    rw [hsplit, List.filter_append, List.map_append, seven_filter a d0 h0]
    have hhead : ([d0].map fun d => (d, ((((d0, v0) :: (d1, v1) :: t).lookup d).getD 0))) =
        [(d0, v0)] := by
      simp only [List.map_cons, List.map_nil, List.lookup_cons_self, Option.getD_some]
    rw [hhead]
    have htail : ((intRange (d0 + 6 + 1) (lastIdx d1 ((d1, v1) :: t))).filter
          (fun d => pdDow d = a)).map
        (fun d => (d, ((((d0, v0) :: (d1, v1) :: t).lookup d).getD 0))) =
        ((intRange d1 (lastIdx d1 ((d1, v1) :: t))).filter
          (fun d => pdDow d = a)).map
        (fun d => (d, ((((d1, v1) :: t).lookup d).getD 0))) := by
      have hstart : d0 + 6 + 1 = d1 := by omega
      rw [hstart]
      apply List.map_congr_left
      intro d hd
      have hdmem := List.mem_filter.mp hd
      have hdge : d1 ≤ d := (mem_intRange.mp hdmem.1).1
      have hdne : (d == d0) = false := by
        simp only [beq_eq_false_iff_ne, ne_eq]
        omega
      simp [List.lookup_cons, hdne]
    rw [htail, ih d1 v1 h1 hall' hstep']
    rfl

/-- The weekday mode of a nonempty constant list is that constant (stated
for the three anchors the inference distinguishes). -/
theorem modeDow_const (l : List Nat) (a : Nat) (hne : l ≠ []) (hall : ∀ x ∈ l, x = a)
    (ha : a = 1 ∨ a = 4 ∨ a = 6) : modeDow l = a := by
  have hca : l.count a = l.length := List.count_eq_length.mpr (fun b hb => (hall b hb).symm)
  have hothers : ∀ d, d ≠ a → l.count d = 0 := fun d hd =>
    List.count_eq_zero.mpr (fun hdl => hd (hall d hdl))
  have hpos : 0 < l.length := List.length_pos.mpr hne
  have hcnt : ∀ d, l.count d = if d = a then l.length else 0 := by
    intro d
    by_cases hd : d = a
    · rw [hd, hca]
      simp
    · rw [hothers d hd]
      simp [hd]
  rcases ha with rfl | rfl | rfl <;>
    simp [modeDow, hcnt, hpos]

/-- On a weekly-regular series, to_regular_weekly is the identity. -/
theorem to_regular_weekly_eq_self (s : Series) (h : regularWeekly s = true) :
    to_regular_weekly s = s := by
  match s with
  | (d0, v0) :: rest =>
    simp only [regularWeekly, Bool.and_eq_true, Bool.or_eq_true, beq_iff_eq,
      List.all_eq_true] at h
    obtain ⟨⟨hanchor, hallb⟩, hstep⟩ := h
    have hallb' : ∀ p ∈ rest, pdDow p.1 = pdDow d0 := hallb
    have hmode : modeDow (((d0, v0) :: rest).map fun p => pdDow p.1) = pdDow d0 := by
      apply modeDow_const
      · simp
      · intro x hx
        rcases List.mem_map.mp hx with ⟨p, hp, rfl⟩
        rcases List.mem_cons.mp hp with heq | hp'
        · rw [heq]
        · exact hallb' p hp'
      · tauto
    rcases hanchor with (h1 | h1) | h1
    · have hfreq : infer_weekly_freq ((d0, v0) :: rest) = "W-TUE" := by
        simp only [infer_weekly_freq]
        rw [hmode, h1]
        simp
      show (dateRange (infer_weekly_freq ((d0, v0) :: rest)) d0
          (lastIdx d0 ((d0, v0) :: rest))).map
          (fun d => (d, ((((d0, v0) :: rest).lookup d).getD 0))) = (d0, v0) :: rest
      rw [hfreq]
      have hdr : dateRange "W-TUE" d0 (lastIdx d0 ((d0, v0) :: rest)) =
          (intRange d0 (lastIdx d0 ((d0, v0) :: rest))).filter
            (fun d => pdDow d = 1) := rfl
      rw [hdr]
      exact weekly_reconstruct 1 rest d0 v0 h1
        (fun p hp => (hallb' p hp).trans h1) hstep
    · have hfreq : infer_weekly_freq ((d0, v0) :: rest) = "W-FRI" := by
        simp only [infer_weekly_freq]
        rw [hmode, h1]
        simp
      show (dateRange (infer_weekly_freq ((d0, v0) :: rest)) d0
          (lastIdx d0 ((d0, v0) :: rest))).map
          (fun d => (d, ((((d0, v0) :: rest).lookup d).getD 0))) = (d0, v0) :: rest
      rw [hfreq]
      have hdr : dateRange "W-FRI" d0 (lastIdx d0 ((d0, v0) :: rest)) =
          (intRange d0 (lastIdx d0 ((d0, v0) :: rest))).filter
            (fun d => pdDow d = 4) := rfl
      rw [hdr]
      exact weekly_reconstruct 4 rest d0 v0 h1
        (fun p hp => (hallb' p hp).trans h1) hstep
    · have hfreq : infer_weekly_freq ((d0, v0) :: rest) = "W" := by
        simp only [infer_weekly_freq]
        rw [hmode, h1]
        simp
      show (dateRange (infer_weekly_freq ((d0, v0) :: rest)) d0
          (lastIdx d0 ((d0, v0) :: rest))).map
          (fun d => (d, ((((d0, v0) :: rest).lookup d).getD 0))) = (d0, v0) :: rest
      rw [hfreq]
      have hdr : dateRange "W" d0 (lastIdx d0 ((d0, v0) :: rest)) =
          (intRange d0 (lastIdx d0 ((d0, v0) :: rest))).filter
            (fun d => pdDow d = 6) := rfl
      rw [hdr]
      exact weekly_reconstruct 6 rest d0 v0 h1
        (fun p hp => (hallb' p hp).trans h1) hstep

/-- C3 (amended): both forecasters return to_regular_weekly(series), the
weekly-regularized history actually fed to the model, as their first
component; this equals the unmodified input series exactly on
weekly-regular inputs, and differs otherwise (see the counterexample). -/
theorem c3_history_component (s : Series) (steps sp sp2 : Nat) (h : regularWeekly s = true) :
    (forecast_holt_winters s steps sp).1 = s ∧ (forecast_sarima s steps sp2).1 = s :=
  ⟨to_regular_weekly_eq_self s h, to_regular_weekly_eq_self s h⟩

/-- C3 witness: the amended theorem applied to the weekly-regular
regSeries. -/
theorem c3_history_component_witness :
    regularWeekly regSeries = true ∧
    ((forecast_holt_winters regSeries 30 7).1 = regSeries ∧
     (forecast_sarima regSeries 30 7).1 = regSeries) :=
  ⟨by decide, c3_history_component regSeries 30 7 7 (by decide)⟩

/-! ### C5: the Date Extractor -/

/-- Correctness of the leftmost-match scan: if the pattern matches at
position i and at no earlier position, the scan reports that match. -/
theorem firstMatch_at : ∀ (i : Nat) (l : List Char) (r : Nat × Nat × Nat),
    matchTriple (l.drop i) = some r →
    (∀ j, j < i → matchTriple (l.drop j) = none) →
    firstMatch l = some r := by
  intro i
  induction i with
  | zero =>
    intro l r h1 _
    cases l with
    | nil => simp [matchTriple] at h1
    | cons c t =>
      rw [List.drop_zero] at h1
      simp [firstMatch, h1]
  | succ i ih =>
    intro l r h1 h2
    cases l with
    | nil => simp [matchTriple] at h1
    | cons c t =>
      have h0 : matchTriple (c :: t) = none := by
        have := h2 0 (Nat.succ_pos i)
        rwa [List.drop_zero] at this
      have hfm : firstMatch (c :: t) = firstMatch t := by
        simp [firstMatch, h0]
      rw [hfm]
      exact ih t r h1 (fun j hj => h2 (j + 1) (Nat.succ_lt_succ hj))

/-- When no position of the string matches the pattern, the scan reports
none. -/
theorem firstMatch_none : ∀ l : List Char,
    (∀ j, j < l.length → matchTriple (l.drop j) = none) →
    firstMatch l = none := by
  intro l
  induction l with
  | nil => intro _; rfl
  | cons c t ih =>
    intro h
    have h0 : matchTriple (c :: t) = none := by
      have := h 0 (by simp)
      rwa [List.drop_zero] at this
    have hfm : firstMatch (c :: t) = firstMatch t := by
      simp [firstMatch, h0]
    rw [hfm]
    exact ih (fun j hj => h (j + 1) (by simpa using Nat.succ_lt_succ hj))

/-- C5 (amended): when the first dd.mm.yyyy match of the path is a valid
day-first calendar date within the pandas timestamp range, the Date
Extractor returns exactly that date; a first match that is invalid
day-first (month token at most 12, date invalid) yields absence, as does
a path without any match.  When the month token exceeds 12 the parse
falls back to month-first instead of returning absence (see the
counterexample). -/
theorem c5_date_extractor :
    (∀ (p : String) (i d m y : Nat),
      matchTriple (p.data.drop i) = some (d, m, y) →
      (∀ j, j < i → matchTriple (p.data.drop j) = none) →
      extract_date_from_path p = to_datetime_dayfirst d m y ∧
      (m ≤ 12 → validYMD y m d = true →
        pdTsMinDay ≤ daysFromCivil y m d → daysFromCivil y m d ≤ pdTsMaxDay →
        extract_date_from_path p = some (daysFromCivil y m d)) ∧
      (m ≤ 12 → validYMD y m d = false → extract_date_from_path p = none)) ∧
    (∀ p : String,
      (∀ j, j < p.data.length → matchTriple (p.data.drop j) = none) →
      extract_date_from_path p = none) := by
  constructor
  · intro p i d m y h1 h2
    have hfm := firstMatch_at i p.data (d, m, y) h1 h2
    have hext : extract_date_from_path p = to_datetime_dayfirst d m y := by
      simp [extract_date_from_path, hfm]
    refine ⟨hext, ?_, ?_⟩
    · intro hm hv hlo hhi
      rw [hext]
      simp [to_datetime_dayfirst, hm, hv, hlo, hhi]
    · intro hm hv
      rw [hext]
      simp [to_datetime_dayfirst, hm, hv]
  · intro p h
    have hfm := firstMatch_none p.data h
    simp [extract_date_from_path, hfm]

/-- C5 witness: the amended theorem applied to concrete paths covering
the valid, invalid-date and no-match cases. -/
theorem c5_date_extractor_witness :
    (matchTriple ("Pagos 03.01.2025.xlsx".data.drop 6) = some (3, 1, 2025) ∧
     (∀ j, j < 6 → matchTriple ("Pagos 03.01.2025.xlsx".data.drop j) = none) ∧
     1 ≤ 12 ∧ validYMD 2025 1 3 = true) ∧
    extract_date_from_path "Pagos 03.01.2025.xlsx" = some (daysFromCivil 2025 1 3) ∧
    extract_date_from_path "Pagos 31.02.2025.xlsx" = none ∧
    extract_date_from_path "sin fecha.xlsx" = none :=
  ⟨⟨by decide, by decide, by decide, by decide⟩,
   ((c5_date_extractor.1 "Pagos 03.01.2025.xlsx" 6 3 1 2025 (by decide) (by decide)).2.1
     (by decide) (by decide) (by decide) (by decide)),
   ((c5_date_extractor.1 "Pagos 31.02.2025.xlsx" 6 31 2 2025 (by decide) (by decide)).2.2
     (by decide) (by decide)),
   (c5_date_extractor.2 "sin fecha.xlsx" (by decide))⟩

/-- C5 counterexample: in pagos 05.13.2025.xlsx the first match
(5, 13, 2025) is not a valid day-first calendar date (month 13), so the
claim demands absence; the source instead parses it month-first and
returns 2025-05-13. -/
theorem c5_counterexample :
    firstMatch "pagos 05.13.2025.xlsx".data = some (5, 13, 2025) ∧
    validYMD 2025 13 5 = false ∧
    extract_date_from_path "pagos 05.13.2025.xlsx" = some (daysFromCivil 2025 5 13) := by
  exact ⟨by decide, by decide, by decide⟩

/-! ### C6: the Row/Block Locator -/

/-- Lookup succeeds exactly on the stored keys. -/
theorem lookup_isSome_iff_mem (d : List (String × Rat)) (k : String) :
    (d.lookup k).isSome ↔ k ∈ d.map Prod.fst := by
  rw [List.lookup_isSome_iff]
  simp

/-- Every recognized key lies in the canonical ten-column vocabulary. -/
theorem recognized_key_mem_final {hb hc : List Cell} {c : Nat} {k : String}
    (h : recognizedKeyAt hb hc c = some k) : k ∈ FINAL_COLS := by
  unfold recognizedKeyAt at h
  by_cases hcond : normBank (headerNorm (hb.getD c .na)) ∈ BANKS_ALLOWED ∧
      headerNorm (hc.getD c .na) ∈ CCY_ALLOWED
  · rw [if_pos hcond] at h
    obtain ⟨hb1, hb2⟩ := hcond
    injection h with h
    subst h
    simp only [BANKS_ALLOWED, CCY_ALLOWED, List.mem_cons, List.not_mem_nil, or_false] at hb1 hb2
    rcases hb1 with h1 | h1 | h1 | h1 | h1 <;> rcases hb2 with h2 | h2 <;>
      rw [h1, h2] <;> decide
  · rw [if_neg hcond] at h
    exact absurd h (by simp)

/-- Keys after a dict assignment: the assigned key plus the old keys. -/
theorem mem_updateAssoc_fst (k : String) (v : Rat) (x : String) :
    ∀ d : List (String × Rat),
      (x ∈ (updateAssoc k v d).map Prod.fst ↔ x = k ∨ x ∈ d.map Prod.fst) := by
  intro d
  induction d with
  | nil => simp [updateAssoc]
  | cons p t ih =>
    obtain ⟨k', v'⟩ := p
    by_cases hk : k' = k
    · subst hk
      simp [updateAssoc]
    · simp only [updateAssoc, if_neg hk, List.map_cons, List.mem_cons, ih]
      tauto

/-- Dict assignment preserves key uniqueness. -/
theorem nodup_updateAssoc_fst (k : String) (v : Rat) :
    ∀ d : List (String × Rat), (d.map Prod.fst).Nodup →
      ((updateAssoc k v d).map Prod.fst).Nodup := by
  intro d
  induction d with
  | nil => simp [updateAssoc]
  | cons p t ih =>
    obtain ⟨k', v'⟩ := p
    intro hnd
    simp only [List.map_cons, List.nodup_cons] at hnd
    by_cases hk : k' = k
    · subst hk
      simpa [updateAssoc] using hnd
    · simp only [updateAssoc, if_neg hk, List.map_cons, List.nodup_cons]
      refine ⟨?_, ih hnd.2⟩
      rw [mem_updateAssoc_fst]
      rintro (rfl | hmem)
      · exact hk rfl
      · exact hnd.1 hmem

/-- Keys accumulated by the column scan are exactly the initial keys
plus the recognized keys of the scanned columns. -/
theorem mem_wideFold_fst (hb hc vals : List Cell) (x : String) :
    ∀ (cols : List Nat) (d : List (String × Rat)),
      (x ∈ ((cols.foldl (wideStep hb hc vals) d).map Prod.fst) ↔
        x ∈ d.map Prod.fst ∨ ∃ c ∈ cols, recognizedKeyAt hb hc c = some x) := by
  intro cols
  induction cols with
  | nil => intro d; simp
  | cons c cols ih =>
    intro d
    rw [List.foldl_cons, ih]
    cases hk : recognizedKeyAt hb hc c with
    | none =>
      simp only [wideStep, hk]
      constructor
      · rintro (hd | hex)
        · exact Or.inl hd
        · exact Or.inr (by simpa using Or.inr (by simpa using hex))
      · rintro (hd | hex)
        · exact Or.inl hd
        · rcases hex with ⟨c', hc', hkey⟩
          rcases List.mem_cons.mp hc' with rfl | hc''
          · rw [hk] at hkey; exact absurd hkey (by simp)
          · exact Or.inr ⟨c', hc'', hkey⟩
    | some k =>
      simp only [wideStep, hk, mem_updateAssoc_fst]
      constructor
      · rintro ((rfl | hd) | hex)
        · exact Or.inr ⟨c, List.mem_cons_self _ _, hk⟩
        · exact Or.inl hd
        · rcases hex with ⟨c', hc', hkey⟩
          exact Or.inr ⟨c', List.mem_cons_of_mem _ hc', hkey⟩
      · rintro (hd | hex)
        · exact Or.inl (Or.inr hd)
        · rcases hex with ⟨c', hc', hkey⟩
          rcases List.mem_cons.mp hc' with rfl | hc''
          · rw [hk] at hkey
            injection hkey with hkey
            exact Or.inl (Or.inl hkey.symm)
          · exact Or.inr ⟨c', hc'', hkey⟩

/-- The column scan preserves key uniqueness. -/
theorem nodup_wideFold_fst (hb hc vals : List Cell) :
    ∀ (cols : List Nat) (d : List (String × Rat)),
      (d.map Prod.fst).Nodup →
      ((cols.foldl (wideStep hb hc vals) d).map Prod.fst).Nodup := by
  intro cols
  induction cols with
  | nil => intro d h; simpa using h
  | cons c cols ih =>
    intro d h
    rw [List.foldl_cons]
    apply ih
    cases hk : recognizedKeyAt hb hc c with
    | none => simpa [wideStep, hk] using h
    | some k =>
      simp only [wideStep, hk]
      exact nodup_updateAssoc_fst k _ d h

/-- With no recognized column the scan leaves the dict untouched. -/
theorem wideFold_none (hb hc vals : List Cell) :
    ∀ (cols : List Nat) (d : List (String × Rat)),
      (∀ c ∈ cols, recognizedKeyAt hb hc c = none) →
      cols.foldl (wideStep hb hc vals) d = d := by
  intro cols
  induction cols with
  | nil => intro d _; rfl
  | cons c cols ih =>
    intro d h
    rw [List.foldl_cons]
    have hc0 : recognizedKeyAt hb hc c = none := h c (List.mem_cons_self _ _)
    have : wideStep hb hc vals d c = d := by simp [wideStep, hc0]
    rw [this]
    exact ih d (fun c' hc' => h c' (List.mem_cons_of_mem _ hc'))

/-- Lookup hits the left part of an append when the key is there. -/
theorem lookup_append_left (d e : List (String × Rat)) (k : String) (v : Rat)
    (h : d.lookup k = some v) : (d ++ e).lookup k = some v := by
  induction d with
  | nil => simp at h
  | cons p t ih =>
    obtain ⟨k', v'⟩ := p
    rw [List.cons_append, List.lookup_cons] at *
    by_cases hk : (k == k') = true
    · simpa [hk] using h
    · simp only [hk] at h ⊢
      exact ih h

/-- Lookup falls through to the right part when the left part misses. -/
theorem lookup_append_right (d e : List (String × Rat)) (k : String)
    (h : d.lookup k = none) : (d ++ e).lookup k = e.lookup k := by
  induction d with
  | nil => simp
  | cons p t ih =>
    obtain ⟨k', v'⟩ := p
    rw [List.cons_append, List.lookup_cons] at *
    by_cases hk : (k == k') = true
    · simp [hk] at h
    · simp only [hk] at h ⊢
      exact ih h

/-- The setdefault pass never changes the value of a present key. -/
theorem sdFold_lookup_present : ∀ (cs : List String) (d : List (String × Rat)) (k : String),
    (d.lookup k).isSome → (cs.foldl setDefault0 d).lookup k = d.lookup k := by
  intro cs
  induction cs with
  | nil => intro d k _; rfl
  | cons c cs ih =>
    intro d k hk
    rw [List.foldl_cons]
    by_cases hc : (d.lookup c).isSome
    · rw [show setDefault0 d c = d from by simp [setDefault0, hc]]
      exact ih d k hk
    · have hd : setDefault0 d c = d ++ [(c, 0)] := by simp [setDefault0, hc]
      rw [hd]
      obtain ⟨v, hv⟩ := Option.isSome_iff_exists.mp hk
      rw [ih _ k (by rw [lookup_append_left d _ k v hv]; rfl),
        lookup_append_left d _ k v hv, hv]

/-- Keys after the setdefault pass: old keys plus the defaulted ones. -/
theorem sdFold_mem_fst : ∀ (cs : List String) (d : List (String × Rat)) (x : String),
    (x ∈ (cs.foldl setDefault0 d).map Prod.fst ↔ x ∈ d.map Prod.fst ∨ x ∈ cs) := by
  intro cs
  induction cs with
  | nil => intro d x; simp
  | cons c cs ih =>
    intro d x
    rw [List.foldl_cons, ih]
    by_cases hc : (d.lookup c).isSome
    · rw [show setDefault0 d c = d from by simp [setDefault0, hc]]
      have hcmem : c ∈ d.map Prod.fst := (lookup_isSome_iff_mem d c).mp hc
      simp only [List.mem_cons]
      constructor
      · rintro (hd | hcs)
        · exact Or.inl hd
        · exact Or.inr (Or.inr hcs)
      · rintro (hd | rfl | hcs)
        · exact Or.inl hd
        · exact Or.inl hcmem
        · exact Or.inr hcs
    · have hd : setDefault0 d c = d ++ [(c, 0)] := by simp [setDefault0, hc]
      rw [hd]
      simp only [List.map_append, List.mem_append, List.map_cons, List.map_nil,
        List.mem_cons, List.not_mem_nil, or_false, List.mem_singleton]
      tauto

/-- The setdefault pass preserves key uniqueness. -/
theorem sdFold_nodup_fst : ∀ (cs : List String) (d : List (String × Rat)),
    (d.map Prod.fst).Nodup → ((cs.foldl setDefault0 d).map Prod.fst).Nodup := by
  intro cs
  induction cs with
  | nil => intro d h; simpa using h
  | cons c cs ih =>
    intro d h
    rw [List.foldl_cons]
    apply ih
    by_cases hc : (d.lookup c).isSome
    · rwa [show setDefault0 d c = d from by simp [setDefault0, hc]]
    · rw [show setDefault0 d c = d ++ [(c, 0)] from by simp [setDefault0, hc]]
      rw [List.map_append, List.nodup_append]
      refine ⟨h, by simp, ?_⟩
      intro x hx
      simp only [List.map_cons, List.map_nil, List.mem_singleton]
      rintro rfl
      exact absurd ((lookup_isSome_iff_mem d x).mpr hx) hc

/-- A key absent before the setdefault pass ends holding 0.0. -/
theorem sdFold_lookup_missing : ∀ (cs : List String) (d : List (String × Rat)) (k : String),
    k ∉ d.map Prod.fst → k ∈ cs → (cs.foldl setDefault0 d).lookup k = some 0 := by
  intro cs
  induction cs with
  | nil => intro d k _ h; simp at h
  | cons c cs ih =>
    intro d k hkd hkcs
    rw [List.foldl_cons]
    have hdnone : d.lookup k = none := by
      cases hcase : d.lookup k with
      | none => rfl
      | some v =>
        exact absurd ((lookup_isSome_iff_mem d k).mp (by rw [hcase]; rfl)) hkd
    by_cases hkc : k = c
    · subst hkc
      have hc : (d.lookup k).isSome = false := by rw [hdnone]; rfl
      have hd : setDefault0 d k = d ++ [(k, 0)] := by simp [setDefault0, hc]
      rw [hd]
      have hlook : (d ++ [(k, 0)]).lookup k = some 0 := by
        rw [lookup_append_right d _ k hdnone]
        simp
      rw [sdFold_lookup_present cs _ k (by rw [hlook]; rfl), hlook]
    · rcases List.mem_cons.mp hkcs with rfl | hkcs'
      · exact absurd rfl hkc
      · apply ih _ k _ hkcs'
        by_cases hc : (d.lookup c).isSome
        · rwa [show setDefault0 d c = d from by simp [setDefault0, hc]]
        · rw [show setDefault0 d c = d ++ [(c, 0)] from by simp [setDefault0, hc]]
          simp only [List.map_append, List.mem_append, List.map_cons, List.map_nil,
            List.mem_singleton]
          rintro (hmem | hmem)
          · exact hkd hmem
          · exact hkc hmem

/-- C6: once the total-label row is located with two header rows above
it, the locator returns absence when no column carries both a recognized
bank and a recognized currency, and otherwise returns a record holding
exactly the ten canonical bank_currency keys, each key unique, with every
recognized-but-absent combination filled with 0.0. -/
theorem c6_total_block_locator (g : Grid) (i : Nat)
    (hfind : g.findIdx? rowHasTotalLabel = some i) (h2 : 2 ≤ i) :
    (recognizedColsOf g i = [] → read_total_a_pagar_wide g = none) ∧
    (recognizedColsOf g i ≠ [] →
      ∃ w, read_total_a_pagar_wide g = some w ∧
        (w.map Prod.fst).Nodup ∧
        (∀ k, k ∈ w.map Prod.fst ↔ k ∈ FINAL_COLS) ∧
        (∀ k ∈ FINAL_COLS, k ∉ recognizedColsOf g i → w.lookup k = some 0)) := by
  have hnotlt : ¬ i < 2 := by omega
  have hread : read_total_a_pagar_wide g =
      (if (List.range (gridWidth g)).foldl
          (wideStep (headerRowsOf g i).1 (headerRowsOf g i).2.1 (headerRowsOf g i).2.2) [] = []
        then none
        else some (FINAL_COLS.foldl setDefault0
          ((List.range (gridWidth g)).foldl
            (wideStep (headerRowsOf g i).1 (headerRowsOf g i).2.1 (headerRowsOf g i).2.2) []))) := by
    rw [read_total_a_pagar_wide, hfind]
    simp only [hnotlt, if_false]
  set hb := (headerRowsOf g i).1
  set hcr := (headerRowsOf g i).2.1
  set vals := (headerRowsOf g i).2.2
  set wide := (List.range (gridWidth g)).foldl (wideStep hb hcr vals) [] with hwide
  have hmemrec : ∀ k : String, k ∈ recognizedColsOf g i ↔
      ∃ c ∈ List.range (gridWidth g), recognizedKeyAt hb hcr c = some k := by
    intro k
    rw [recognizedColsOf, List.mem_filterMap]
  have hmemwide : ∀ x : String, x ∈ wide.map Prod.fst ↔
      ∃ c ∈ List.range (gridWidth g), recognizedKeyAt hb hcr c = some x := by
    intro x
    rw [hwide, mem_wideFold_fst]
    simp
  constructor
  · intro hempty
    have hnone : ∀ c ∈ List.range (gridWidth g), recognizedKeyAt hb hcr c = none := by
      have := List.filterMap_eq_nil_iff.mp hempty
      intro c hc
      exact this c hc
    have : wide = [] := by
      rw [hwide]
      exact wideFold_none hb hcr vals _ [] hnone
    rw [hread, if_pos this]
  · intro hne
    have hwne : wide ≠ [] := by
      intro hw
      rcases List.exists_mem_of_ne_nil _ hne with ⟨k, hk⟩
      rcases (hmemrec k).mp hk with ⟨c, hc, hkey⟩
      have : k ∈ wide.map Prod.fst := (hmemwide k).mpr ⟨c, hc, hkey⟩
      rw [hw] at this
      simp at this
    rw [hread, if_neg hwne]
    refine ⟨FINAL_COLS.foldl setDefault0 wide, rfl, ?_, ?_, ?_⟩
    · exact sdFold_nodup_fst FINAL_COLS wide
        (nodup_wideFold_fst hb hcr vals _ [] (by simp))
    · intro k
      rw [sdFold_mem_fst]
      constructor
      · rintro (hmem | hmem)
        · rcases (hmemwide k).mp hmem with ⟨c, hc, hkey⟩
          exact recognized_key_mem_final hkey
        · exact hmem
      · intro hmem
        exact Or.inr hmem
    · intro k hkf hknotrec
      apply sdFold_lookup_missing FINAL_COLS wide k _ hkf
      intro hmem
      exact hknotrec ((hmemrec k).mpr ((hmemwide k).mp hmem))

/-- C6 witness: the locator theorem applied to the concrete one-column
grid exGrid, whose total row sits at index 2. -/
theorem c6_total_block_locator_witness :
    (exGrid.findIdx? rowHasTotalLabel = some 2 ∧ 2 ≤ 2 ∧
      recognizedColsOf exGrid 2 = ["BCP_PEN"]) ∧
    ((recognizedColsOf exGrid 2 = [] → read_total_a_pagar_wide exGrid = none) ∧
     (recognizedColsOf exGrid 2 ≠ [] →
       ∃ w, read_total_a_pagar_wide exGrid = some w ∧
         (w.map Prod.fst).Nodup ∧
         (∀ k, k ∈ w.map Prod.fst ↔ k ∈ FINAL_COLS) ∧
         (∀ k ∈ FINAL_COLS, k ∉ recognizedColsOf exGrid 2 → w.lookup k = some 0))) :=
  ⟨⟨by decide, by decide, by decide⟩,
   c6_total_block_locator exGrid 2 (by decide) (by decide)⟩

/-! ### C7: the Series Preparer with daily densification -/

/-- Group keys are sorted ascending. -/
theorem sortedKeys_sorted (l : List Int) :
    List.Sorted (fun a b : Int => a ≤ b) (sortedKeys l) :=
  (List.sorted_insertionSort _ l).sublist (List.dedup_sublist _)

/-- Group keys are exactly the observed dates. -/
theorem sortedKeys_mem (l : List Int) (x : Int) : x ∈ sortedKeys l ↔ x ∈ l := by
  rw [sortedKeys, List.mem_dedup, List.mem_insertionSort]

/-- A nonempty table has group keys. -/
theorem sortedKeys_ne_nil {l : List Int} (h : l ≠ []) : sortedKeys l ≠ [] := by
  rcases List.exists_mem_of_ne_nil _ h with ⟨x, hx⟩
  intro hnil
  have := (sortedKeys_mem l x).mpr hx
  rw [hnil] at this
  simp at this

/-- The keep-the-newest fold returns the last element. -/
theorem foldl_last (l : List Int) : ∀ d : Int, l.foldl (fun _ x => x) d = l.getLastD d := by
  induction l with
  | nil => intro d; rfl
  | cons x t ih => intro d; rw [List.foldl_cons, List.getLastD_cons]; exact ih x

/-- The last element of a nonempty list is one of its elements. -/
theorem getLastD_mem : ∀ (l : List Int) (d : Int), l ≠ [] → l.getLastD d ∈ l := by
  intro l
  induction l with
  | nil => intro d h; exact absurd rfl h
  | cons x t ih =>
    intro d _
    rw [List.getLastD_cons]
    cases ht : t with
    | nil => simp [ht]
    | cons y u =>
      rw [← ht]
      exact List.mem_cons_of_mem x (ih x (by simp [ht]))

/-- In a sorted list every element is at most the last. -/
theorem le_getLastD_of_sorted :
    ∀ l : List Int, List.Sorted (fun a b : Int => a ≤ b) l →
      ∀ x ∈ l, ∀ d : Int, x ≤ l.getLastD d := by
  intro l
  induction l with
  | nil => intro _ x hx; simp at hx
  | cons k t ih =>
    intro hs x hx d
    rw [List.getLastD_cons]
    rcases List.mem_cons.mp hx with rfl | hxt
    · cases ht : t with
      | nil => simp
      | cons y u =>
        rw [← ht]
        exact List.rel_of_sorted_cons hs _ (getLastD_mem t x (by simp [ht]))
    · exact ih hs.of_cons x hxt k

/-- Looking a present key up in a keyed map hits its value. -/
theorem lookup_mapkey (f : Int → Rat) :
    ∀ (keys : List Int) (d : Int), d ∈ keys →
      ((keys.map fun k => (k, f k)).lookup d) = some (f d) := by
  intro keys
  induction keys with
  | nil => intro d h; simp at h
  | cons k t ih =>
    intro d h
    rw [List.map_cons, List.lookup_cons]
    by_cases hk : d = k
    · subst hk; simp
    · have : (d == k) = false := by simp [hk]
      rw [this]
      simp only [Bool.false_eq_true, if_false]
      rcases List.mem_cons.mp h with rfl | ht
      · exact absurd rfl hk
      · exact ih d ht

/-- Looking an absent key up in a keyed map misses. -/
theorem lookup_mapkey_none (f : Int → Rat) :
    ∀ (keys : List Int) (d : Int), d ∉ keys →
      ((keys.map fun k => (k, f k)).lookup d) = none := by
  intro keys
  induction keys with
  | nil => intro d _; rfl
  | cons k t ih =>
    intro d h
    rw [List.map_cons, List.lookup_cons]
    have hk : (d == k) = false := by
      simp only [beq_eq_false_iff_ne, ne_eq]
      intro hdk
      exact h (hdk ▸ List.mem_cons_self _ _)
    rw [hk]
    simp only [Bool.false_eq_true, if_false]
    exact ih d (fun ht => h (List.mem_cons_of_mem _ ht))

/-- Consecutive integers: the day-by-day calendar steps by one. -/
theorem chain_succ_map : ∀ (n : Nat) (a : Int),
    List.Chain' (fun x y : Int => y = x + 1) ((List.range n).map (fun i : Nat => a + (i : Int))) := by
  intro n
  induction n with
  | zero => intro a; simp
  | succ n ih =>
    intro a
    rw [List.range_succ_eq_map, List.map_cons, List.map_map]
    have hmap : (List.range n).map ((fun i : Nat => a + (i : Int)) ∘ Nat.succ) =
        (List.range n).map (fun i : Nat => (a + 1) + (i : Int)) := by
      apply List.map_congr_left
      intro i _
      simp only [Function.comp]
      push_cast
      ring
    rw [hmap]
    rcases n with _ | n
    · simp
    · rw [List.chain'_cons']
      refine ⟨?_, ih (a + 1)⟩
      intro b hb
      rw [List.range_succ_eq_map, List.map_cons] at hb
      simp only [List.head?_cons, Option.mem_def, Option.some.injEq] at hb
      omega

/-- Prepared daily series of a nonempty table: consecutive dates stepping
by one day, spanning exactly the observed min..max dates, each date
carrying the summed sign-flipped Valor of its rows (0.0 on gap dates). -/
theorem c7general (t : List FRow) (hne : t ≠ []) :
    ((prepare_series t (some "D")).2.map Prod.fst).Chain' (fun a b : Int => b = a + 1) ∧
    (∀ d : Int, d ∈ (prepare_series t (some "D")).2.map Prod.fst ↔
      ((∃ r ∈ t, r.fecha ≤ d) ∧ (∃ r ∈ t, d ≤ r.fecha))) ∧
    (∀ pr ∈ (prepare_series t (some "D")).2,
      pr.2 = ((t.filter (fun r => r.fecha = pr.1)).map (fun r => -r.valor)).sum) := by
  set tm := t.map (fun r => { r with monto := some (-r.valor) }) with htm
  set fval := fun d => ((tm.filter (fun r => r.fecha = d)).map (fun r => r.monto.getD 0)).sum
    with hfval
  have hmapfec : tm.map (fun r => r.fecha) = t.map (fun r => r.fecha) := by
    rw [htm, List.map_map]
    exact List.map_congr_left (fun r _ => rfl)
  set ks := sortedKeys (t.map (fun r => r.fecha)) with hks
  have hs : groupSumMonto tm = ks.map (fun k => (k, fval k)) := by
    rw [groupSumMonto, hmapfec]
  have hksne : ks ≠ [] := sortedKeys_ne_nil (by simpa using hne)
  have hsne : groupSumMonto tm ≠ [] := by
    rw [hs]
    simpa using hksne
  rcases hseq : groupSumMonto tm with _ | ⟨⟨d0, v0⟩, stail⟩
  · exact absurd hseq hsne
  have hslit : (d0, v0) :: stail = ks.map (fun k => (k, fval k)) := by
    rw [← hseq, hs]
  have hsfst : ((d0, v0) :: stail).map Prod.fst = ks := by
    rw [hslit, List.map_map]
    exact List.map_id _
  have hkshape : ks = d0 :: stail.map Prod.fst := by
    rw [← hsfst, List.map_cons]
  have hsorted : List.Sorted (fun a b : Int => a ≤ b) ks := sortedKeys_sorted _
  have hd0mem : d0 ∈ ks := by rw [hkshape]; exact List.mem_cons_self _ _
  have hmin : ∀ x ∈ ks, d0 ≤ x := by
    intro x hx
    rw [hkshape] at hx hsorted
    rcases List.mem_cons.mp hx with rfl | hx'
    · exact le_refl x
    · exact List.rel_of_sorted_cons hsorted x hx'
  set L := lastIdx d0 ((d0, v0) :: stail) with hL
  have hLlast : L = ks.getLastD d0 := by
    rw [hL, lastIdx, foldl_last, hsfst]
  have hLmem : L ∈ ks := by
    rw [hLlast]
    exact getLastD_mem ks d0 hksne
  have hmax : ∀ x ∈ ks, x ≤ L := by
    intro x hx
    rw [hLlast]
    exact le_getLastD_of_sorted ks hsorted x hx d0
  have hout : (prepare_series t (some "D")).2 =
      (intRange d0 L).map (fun d => (d, (((d0, v0) :: stail).lookup d).getD 0)) := by
    simp only [prepare_series, ← htm]
    rw [hseq]
    rfl
  have houtfst : (prepare_series t (some "D")).2.map Prod.fst = intRange d0 L := by
    rw [hout, List.map_map]
    exact List.map_id _
  have hmemks : ∀ x : Int, x ∈ ks ↔ ∃ r ∈ t, r.fecha = x := by
    intro x
    rw [hks, sortedKeys_mem]
    simp [eq_comm]
  refine ⟨?_, ?_, ?_⟩
  · rw [houtfst]
    exact chain_succ_map _ d0
  · intro d
    rw [houtfst, mem_intRange]
    constructor
    · rintro ⟨h1, h2⟩
      rcases (hmemks d0).mp hd0mem with ⟨r1, hr1, hf1⟩
      rcases (hmemks L).mp hLmem with ⟨r2, hr2, hf2⟩
      exact ⟨⟨r1, hr1, by omega⟩, ⟨r2, hr2, by omega⟩⟩
    · rintro ⟨⟨r1, hr1, hf1⟩, ⟨r2, hr2, hf2⟩⟩
      have h1 : d0 ≤ r1.fecha := hmin _ ((hmemks r1.fecha).mpr ⟨r1, hr1, rfl⟩)
      have h2 : r2.fecha ≤ L := hmax _ ((hmemks r2.fecha).mpr ⟨r2, hr2, rfl⟩)
      omega
  · intro pr hpr
    rw [hout] at hpr
    rcases List.mem_map.mp hpr with ⟨d, hd, rfl⟩
    show (((d0, v0) :: stail).lookup d).getD 0 = _
    have hfv : fval d = ((t.filter (fun r => r.fecha = d)).map (fun r => -r.valor)).sum := by
      simp only [hfval, htm, List.filter_map, List.map_map]
      rfl
    by_cases hdks : d ∈ ks
    · rw [hslit, lookup_mapkey fval ks d hdks]
      simp only [Option.getD_some]
      exact hfv
    · rw [hslit, lookup_mapkey_none fval ks d hdks]
      simp only [Option.getD_none]
      have hfilter : t.filter (fun r => r.fecha = d) = [] := by
        rw [List.filter_eq_nil_iff]
        intro r hr
        simp only [decide_eq_true_eq]
        intro hrd
        exact hdks ((hmemks d).mpr ⟨r, hr, hrd⟩)
      rw [hfilter]
      simp

/-- C7: prepare_series with daily frequency aggregates by FECHA summing
MONTO = -Valor, sorts ascending and reindexes onto the complete daily
calendar between the observed minimum and maximum, filling absent dates
with 0.0; on the two-record example table (2025-01-01 and 2025-01-05,
both Valor -100) it yields the five-entry series with 100.0 at the
endpoints and 0.0 on the three gap dates. -/
theorem c7_prepare_series_daily :
    (∀ t : List FRow, t ≠ [] →
      ((prepare_series t (some "D")).2.map Prod.fst).Chain' (fun a b : Int => b = a + 1) ∧
      (∀ d : Int, d ∈ (prepare_series t (some "D")).2.map Prod.fst ↔
        ((∃ r ∈ t, r.fecha ≤ d) ∧ (∃ r ∈ t, d ≤ r.fecha))) ∧
      (∀ pr ∈ (prepare_series t (some "D")).2,
        pr.2 = ((t.filter (fun r => r.fecha = pr.1)).map (fun r => -r.valor)).sum)) ∧
    (prepare_series c7Table (some "D")).2 =
      [(daysFromCivil 2025 1 1, 100), (daysFromCivil 2025 1 1 + 1, 0),
       (daysFromCivil 2025 1 1 + 2, 0), (daysFromCivil 2025 1 1 + 3, 0),
       (daysFromCivil 2025 1 1 + 4, 100)] :=
  ⟨c7general, by with_unfolding_all decide⟩

/-- C7 witness: the general clauses of the theorem applied to the example
table. -/
theorem c7_prepare_series_daily_witness :
    c7Table ≠ [] ∧
    (((prepare_series c7Table (some "D")).2.map Prod.fst).Chain' (fun a b : Int => b = a + 1) ∧
     (∀ d : Int, d ∈ (prepare_series c7Table (some "D")).2.map Prod.fst ↔
       ((∃ r ∈ c7Table, r.fecha ≤ d) ∧ (∃ r ∈ c7Table, d ≤ r.fecha))) ∧
     (∀ pr ∈ (prepare_series c7Table (some "D")).2,
       pr.2 = ((c7Table.filter (fun r => r.fecha = pr.1)).map (fun r => -r.valor)).sum)) :=
  ⟨by decide, c7_prepare_series_daily.1 c7Table (by decide)⟩

end ProyPagos
